import Mathlib

/-!
A shallow embedding of the two components of the deal.II excerpt:

* the dense numeric vector class `Vector<Number>` of `lac/vector.h`;
* the index-routing logic of `TrilinosWrappers::BlockSparseMatrix` of
  `lac/trilinos_block_sparse_matrix.h` (the bulk `set`/`add` overloads,
  `is_compressed`).

Machinery the excerpt delegates to but whose code is not part of the excerpt
(the `BlockIndices` prefix-sum maps, the base-class single-element `set`, the
per-block `set`/`add` of the wrapped library, and the bodies of the vector
methods that appear only as declarations) is modelled from the specification;
each such definition carries a doc comment saying so.  The scalar type
(`double` resp. the template parameter `Number`) is modelled by `ℚ`, an exact
field: none of the routing logic depends on rounding.
-/

namespace DealII

/-! ### Definitions: the embedded data model and operations -/

/-- Errors raised by `Assert` macros of the vector class (`ExcIndexRange`,
`ExcEmptyVector`, `ExcDimensionsDontMatch` in `vector.h`). -/
inductive VecErr where
  | indexOutOfRange : VecErr
  | emptyVector : VecErr
  | dimensionMismatch : VecErr
  deriving Repr, DecidableEq

/-- The dense numeric vector of `vector.h`: a buffer of which the first `dim`
elements are active, `maxdim` elements being reserved. -/
structure Vector where
  dim : Nat
  maxdim : Nat
  val : List ℚ
  deriving Repr, DecidableEq

/-- `Vector<Number>::operator()(i)` (from `vector.h`):
`Assert (i<dim, ExcIndexRange(i,0,dim)); return val[i];`. -/
def Vector.el (v : Vector) (i : Nat) : Except VecErr ℚ :=
  if i < v.dim then .ok (v.val.getD i 0) else .error .indexOutOfRange

/-- Modelled from the spec: `Vector::mean_value` (its body is not part of this
excerpt, only the declaration in `vector.h`): the arithmetic mean of the `dim`
active elements, failing with `ExcEmptyVector` on a zero-length vector. -/
def Vector.mean_value (v : Vector) : Except VecErr ℚ :=
  if v.dim = 0 then .error .emptyVector
  else .ok ((v.val.take v.dim).sum / (v.dim : ℚ))

/-- Modelled from the spec: `Vector::reinit(N, fast)` (its body is not part of
this excerpt): `N = 0` frees the buffer; otherwise the capacity grows to at
least `N`, existing entries are kept where the old capacity suffices, and with
`fast = false` the whole buffer is zeroed. -/
def Vector.reinit (v : Vector) (N : Nat) (fast : Bool) : Vector :=
  if N = 0 then ⟨0, 0, []⟩
  else
    let md := max v.maxdim N
    if fast then ⟨N, md, v.val ++ List.replicate (md - v.val.length) 0⟩
    else ⟨N, md, List.replicate md 0⟩

/-- Modelled from the spec: `Vector::add(a, V)` (its body is not part of this
excerpt): `U += a*V` elementwise on the `dim` active elements, requiring
matching sizes (`ExcDimensionsDontMatch` otherwise). -/
def Vector.add (v : Vector) (a : ℚ) (w : Vector) : Except VecErr Vector :=
  if v.dim = w.dim then
    .ok ⟨v.dim, v.maxdim,
      (List.range v.dim).map (fun i => v.val.getD i 0 + a * w.val.getD i 0)
        ++ v.val.drop v.dim⟩
  else .error .dimensionMismatch

/-- `BlockSparseMatrix::is_compressed` (from
`trilinos_block_sparse_matrix.h`): the double loop over the block grid with
the `break` after the first uncompressed block; `f r c` stands for the
`is_compressed()` state that block `(r,c)` reports. -/
def is_compressed (n_block_rows n_block_cols : Nat) (f : Nat → Nat → Bool) :
    Bool :=
  (List.range n_block_rows).foldl
    (fun compressed row =>
      if (List.range n_block_cols).any (fun col => f row col == false) then
        false
      else compressed)
    true

/-- Modelled from the spec: the prefix-sum global-to-local mapping of
`BlockIndices::global_to_local` (the `BlockIndices` class is not part of this
excerpt; the spec says the ordered block sizes' prefix sums give the
global-to-local mapping).  Resolves a global index into the pair
(owning block, index local to that block). -/
def globalToLocal : List Nat → Nat → Nat × Nat
  | [], i => (0, i)
  | s :: rest, i =>
      if i < s then (0, i)
      else
        let p := globalToLocal rest (i - s)
        (p.1 + 1, p.2)

/-- The block-column owning global column `c`. -/
def ownerOf (sizes : List Nat) (c : Nat) : Nat := (globalToLocal sizes c).1

/-- The index of global column `c` local to its owning block-column. -/
def localOf (sizes : List Nat) (c : Nat) : Nat := (globalToLocal sizes c).2

/-- Errors the bulk routing can run into: an out-of-bounds write to one of
the scratch arrays (undefined behaviour in the C++), the `ExcInternalError`
assertions of the column walk, and the `ExcDimensionMismatch` debug check on
the accumulated run lengths. -/
inductive RouterErr where
  | oobWrite : RouterErr
  | internalError : RouterErr
  | dimensionMismatch : RouterErr
  deriving Repr, DecidableEq

/-- Write `l[i] := v`, failing when `i` is out of bounds (models an
out-of-bounds `std::vector::operator[]` store). -/
def setCk (l : List Nat) (i v : Nat) : Except RouterErr (List Nat) :=
  if i < l.length then .ok (l.set i v) else .error .oobWrite

/-- `std::vector<unsigned int>::resize (n)`: keep the first `n` elements,
value-initialise (to `0`) any newly created ones. -/
def resizeTo (l : List Nat) (n : Nat) : List Nat :=
  l.take n ++ List.replicate (n - l.length) 0

/-- The scratch state of the column walk of the bulk `set`/`add` overloads:
the loop variables `current_block` and `row_length` and the three member
scratch arrays of `BlockSparseMatrix`. -/
structure PartState where
  currentBlock : Nat
  rowLength : Nat
  block_col_indices : List Nat
  local_row_length : List Nat
  local_col_indices : List Nat
  deriving Repr, DecidableEq

/-- One iteration of the column walk of the bulk `set`/`add` overloads
(`for (j...)` body in `trilinos_block_sparse_matrix.h`), for column value `c`
at position `j`: store the local column index, on a block-column advance
record the finished run length and the new run's offset (the `while` loop
advances `current_block` up to the owning block), and check the
`Assert (col_index.first == current_block, ExcInternalError())`; the `++row_length`
of the loop head is applied at the end of the body. -/
def partStep1 (col_sizes : List Nat) (c j : Nat) (st : PartState) :
    Except RouterErr PartState := do
  let colIndex := globalToLocal col_sizes c
  let lci ← setCk st.local_col_indices j colIndex.2
  if st.currentBlock < colIndex.1 then
    let lrl ← setCk st.local_row_length st.currentBlock st.rowLength
    let bci ← setCk st.block_col_indices colIndex.1 j
    pure ⟨colIndex.1, 1, bci, lrl, lci⟩
  else if colIndex.1 = st.currentBlock then
    pure ⟨st.currentBlock, st.rowLength + 1, st.block_col_indices,
      st.local_row_length, lci⟩
  else
    .error .internalError

/-- The column walk over the remaining column indices, `j` being the position
of the first of them in the original array. -/
def partAux (col_sizes : List Nat) :
    List Nat → Nat → PartState → Except RouterErr PartState
  | [], _, st => .ok st
  | c :: rest, j, st => do
      let st' ← partStep1 col_sizes c j st
      partAux col_sizes rest (j + 1) st'

/-- The complete column-partition phase of the bulk `set`/`add` overloads
(lines 800–849 resp. 934–983 of `trilinos_block_sparse_matrix.h`): resize the
scratch arrays (`bci0`, `lci0` are their contents left over from earlier
calls), clear `local_row_length`, write `block_col_indices[0] = 0`, run the
column walk, record the last run's length, and check the two trailing
assertions (`current_block < n_block_cols`, and the debug-mode check that the
run lengths sum to `n_cols`). -/
def runPart (col_sizes cols bci0 lci0 : List Nat) :
    Except RouterErr PartState := do
  let nbc := col_sizes.length
  let bci ← setCk (resizeTo bci0 nbc) 0 0
  let st0 : PartState :=
    ⟨0, 0, bci, List.replicate nbc 0, resizeTo lci0 cols.length⟩
  let st ← partAux col_sizes cols 0 st0
  let lrl ← setCk st.local_row_length st.currentBlock st.rowLength
  let st' : PartState := { st with local_row_length := lrl }
  if st.currentBlock < nbc then
    if ((List.range nbc).map (fun i => st'.local_row_length.getD i 0)).sum
        = cols.length then
      pure st'
    else .error .dimensionMismatch
  else .error .internalError

/-- A single-row multi-column call forwarded to one block of the grid. -/
structure BlockCall where
  blockRow : Nat
  blockCol : Nat
  localRow : Nat
  localCols : List Nat
  vals : List ℚ
  deriving Repr, DecidableEq

/-- The dispatch phase of the bulk `set`/`add` overloads (lines 856–871 resp.
990–1005 of `trilinos_block_sparse_matrix.h`): for each row resolve the
(block-row, local-row) pair, and for each block-column with a non-zero run
length emit one single-row call to the owning block carrying the local column
indices of the run and the row-major value slice.  Both overloads emit the
same calls; they differ only in the block operation applied. -/
def dispatchCalls (row_sizes : List Nat) (nbc nCols : Nat) (st : PartState)
    (row_indices : List Nat) (vals : List ℚ) : List BlockCall :=
  (List.range row_indices.length).flatMap fun i =>
    (List.range nbc).filterMap fun bc =>
      if st.local_row_length.getD bc 0 = 0 then none
      else
        some ⟨(globalToLocal row_sizes (row_indices.getD i 0)).1, bc,
          (globalToLocal row_sizes (row_indices.getD i 0)).2,
          (st.local_col_indices.drop (st.block_col_indices.getD bc 0)).take
            (st.local_row_length.getD bc 0),
          (vals.drop (nCols * i + st.block_col_indices.getD bc 0)).take
            (st.local_row_length.getD bc 0)⟩

/-- The state of the whole block matrix: the value of entry
(block-row, block-col, local-row, local-col). -/
def Mat : Type := Nat → Nat → Nat → Nat → ℚ

/-- Store `v` at entry (`br`, `bc`, `r`, `c`). -/
def setEntry (M : Mat) (br bc r c : Nat) (v : ℚ) : Mat :=
  fun br' bc' r' c' =>
    if br' = br ∧ bc' = bc ∧ r' = r ∧ c' = c then v else M br' bc' r' c'

/-- Accumulate `v` into entry (`br`, `bc`, `r`, `c`). -/
def addEntry (M : Mat) (br bc r c : Nat) (v : ℚ) : Mat :=
  fun br' bc' r' c' =>
    if br' = br ∧ bc' = bc ∧ r' = r ∧ c' = c then M br' bc' r' c' + v
    else M br' bc' r' c'

/-- Modelled from the spec: the wrapped library's per-block multi-column
`set` on one row (the block type is an external collaborator) replaces each
targeted entry by the given value, left to right. -/
def applyCallSet (M : Mat) (call : BlockCall) : Mat :=
  (call.localCols.zip call.vals).foldl
    (fun m p => setEntry m call.blockRow call.blockCol call.localRow p.1 p.2) M

/-- Modelled from the spec: the wrapped library's per-block multi-column
`add` on one row accumulates each given value into the targeted entry. -/
def applyCallAdd (M : Mat) (call : BlockCall) : Mat :=
  (call.localCols.zip call.vals).foldl
    (fun m p => addEntry m call.blockRow call.blockCol call.localRow p.1 p.2) M

/-- `BlockSparseMatrix::set (n_rows, row_indices, n_cols, col_indices,
values)` (lines 792–872 of `trilinos_block_sparse_matrix.h`): the column
partition phase followed by the per-row dispatch of block-level `set` calls. -/
def bulkSet (row_sizes col_sizes : List Nat) (M : Mat)
    (row_indices col_indices : List Nat) (vals : List ℚ)
    (bci0 lci0 : List Nat) : Except RouterErr Mat := do
  let st ← runPart col_sizes col_indices bci0 lci0
  pure ((dispatchCalls row_sizes col_sizes.length col_indices.length st
      row_indices vals).foldl applyCallSet M)

/-- `BlockSparseMatrix::add (n_rows, row_indices, n_cols, col_indices,
values)` (lines 922–1006 of `trilinos_block_sparse_matrix.h`): identical
routing, block-level `add` calls. -/
def bulkAdd (row_sizes col_sizes : List Nat) (M : Mat)
    (row_indices col_indices : List Nat) (vals : List ℚ)
    (bci0 lci0 : List Nat) : Except RouterErr Mat := do
  let st ← runPart col_sizes col_indices bci0 lci0
  pure ((dispatchCalls row_sizes col_sizes.length col_indices.length st
      row_indices vals).foldl applyCallAdd M)

/-- Modelled from the spec: `BlockMatrixBase::set(i, j, value)` (the base
class is not part of this excerpt), which the single-element
`BlockSparseMatrix::set` forwards to: route the global coordinates through
the row and column prefix-sum maps and store the value in the owning block. -/
def setElement (row_sizes col_sizes : List Nat) (M : Mat) (i j : Nat)
    (v : ℚ) : Mat :=
  let ri := globalToLocal row_sizes i
  let ci := globalToLocal col_sizes j
  setEntry M ri.1 ci.1 ri.2 ci.2 v

/-- The reference semantics of claim C1: one single-element `set` per
(row, column) pair of the rectangular value block, in row-major order. -/
def pairwiseSet (row_sizes col_sizes : List Nat) (M : Mat)
    (row_indices col_indices : List Nat) (vals : List ℚ) : Mat :=
  (List.range row_indices.length).foldl
    (fun m i =>
      (List.range col_indices.length).foldl
        (fun m2 jj =>
          setElement row_sizes col_sizes m2 (row_indices.getD i 0)
            (col_indices.getD jj 0)
            (vals.getD (col_indices.length * i + jj) 0)) m)
    M

/-- The column indices are sorted by increasing owning block-column. -/
def sortedByBlockColumn (col_sizes : List Nat) : List Nat → Bool
  | [] => true
  | [_] => true
  | c1 :: c2 :: rest =>
      decide (ownerOf col_sizes c1 ≤ ownerOf col_sizes c2)
        && sortedByBlockColumn col_sizes (c2 :: rest)

/-- Number of column indices owned by block-column `b`. -/
def runLen (col_sizes : List Nat) (cols : List Nat) (b : Nat) : Nat :=
  cols.countP (fun c => ownerOf col_sizes c == b)

/-- Offset at which block-column `b`'s run of column indices begins: the
number of column indices owned by smaller block-columns. -/
def runStart (col_sizes : List Nat) (cols : List Nat) (b : Nat) : Nat :=
  cols.countP (fun c => decide (ownerOf col_sizes c < b))

/-- The block-column owning the last column index (`0` for an empty list). -/
def lastOwner (col_sizes cols : List Nat) : Nat :=
  (cols.map (ownerOf col_sizes)).getLastD 0

/-- The invariant established by the column walk on a sorted, in-range run of
column indices, relating the scratch arrays to the run decomposition. -/
structure PartInvariant (cs cols lciI : List Nat) (st : PartState) : Prop where
  cur : st.currentBlock = lastOwner cs cols
  rl : st.rowLength = runLen cs cols (lastOwner cs cols)
  bciLen : st.block_col_indices.length = cs.length
  bciZero : st.block_col_indices.getD 0 0 = 0
  bci : ∀ b, runLen cs cols b ≠ 0 →
    st.block_col_indices.getD b 0 = runStart cs cols b
  lrlLen : st.local_row_length.length = cs.length
  lrl : ∀ b, st.local_row_length.getD b 0
    = if b < lastOwner cs cols then runLen cs cols b else 0
  lci : st.local_col_indices = cols.map (localOf cs) ++ lciI.drop cols.length

/-- An elementary entry update:
(block-row, block-col, local-row, local-col, value). -/
def applyUpd (M : Mat) (u : Nat × Nat × Nat × Nat × ℚ) : Mat :=
  setEntry M u.1 u.2.1 u.2.2.1 u.2.2.2.1 u.2.2.2.2

/-- The elementary updates a single forwarded block-level `set` call makes. -/
def callUpds (call : BlockCall) : List (Nat × Nat × Nat × Nat × ℚ) :=
  (call.localCols.zip call.vals).map
    (fun pv => (call.blockRow, call.blockCol, call.localRow, pv.1, pv.2))

/-- The elementary update the pairwise reference loop makes for row position
`i` and column position `j`. -/
def rowUpd (row_sizes cs rows cols : List Nat) (vals : List ℚ) (i j : Nat) :
    Nat × Nat × Nat × Nat × ℚ :=
  ((globalToLocal row_sizes (rows.getD i 0)).1,
   (globalToLocal cs (cols.getD j 0)).1,
   (globalToLocal row_sizes (rows.getD i 0)).2,
   (globalToLocal cs (cols.getD j 0)).2,
   vals.getD (cols.length * i + j) 0)

/-- The spec-level description of the single forwarded call for row position
`i` and block-column `bc`: the row resolved independently through the row
map, the local column indices of `bc`'s run, and the row-major value slice
starting at offset `n_cols * i + run offset`. -/
def runCall (row_sizes cs cols rows : List Nat) (vals : List ℚ) (i bc : Nat) :
    BlockCall :=
  ⟨(globalToLocal row_sizes (rows.getD i 0)).1, bc,
   (globalToLocal row_sizes (rows.getD i 0)).2,
   ((cols.map (localOf cs)).drop (runStart cs cols bc)).take (runLen cs cols bc),
   (vals.drop (cols.length * i + runStart cs cols bc)).take (runLen cs cols bc)⟩

/-! ### Theorems -/

theorem foldl_sticky_false (P : Nat → Bool) (L : List Nat) (b : Bool) :
    L.foldl (fun acc r => if P r then false else acc) b = (b && !(L.any P)) := by
  induction L generalizing b with
  | nil => simp
  | cons r L ih =>
      rw [List.foldl_cons, ih, List.any_cons]
      cases h : P r <;> simp [h]

theorem is_compressed_eq_all (nbr nbc : Nat) (f : Nat → Nat → Bool) :
    is_compressed nbr nbc f = true ↔
      ∀ r, r < nbr → ∀ c, c < nbc → f r c = true := by
  unfold is_compressed
  rw [foldl_sticky_false]
  simp [List.any_eq_true, List.mem_range]

theorem ownerOf_lt_length (sizes : List Nat) (c : Nat)
    (h : c < sizes.sum) : ownerOf sizes c < sizes.length := by
  induction sizes generalizing c with
  | nil => simp at h
  | cons s rest ih =>
      unfold ownerOf globalToLocal
      by_cases hc : c < s
      · simp [hc]
      · simp only [hc, if_false, List.length_cons]
        have : c - s < rest.sum := by
          simp [List.sum_cons] at h
          omega
        exact Nat.succ_lt_succ (ih (c - s) this)

theorem lastOwner_concat (cs cols : List Nat) (c : Nat) :
    lastOwner cs (cols ++ [c]) = ownerOf cs c := by
  simp [lastOwner, List.getLastD_eq_getLast?, List.getLast?_concat]

theorem sortedByBlockColumn_iff (cs : List Nat) (cols : List Nat) :
    sortedByBlockColumn cs cols = true ↔
      List.Chain' (fun a b => ownerOf cs a ≤ ownerOf cs b) cols := by
  induction cols with
  | nil => simp [sortedByBlockColumn]
  | cons c rest ih =>
      cases rest with
      | nil => simp [sortedByBlockColumn]
      | cons c2 t =>
          rw [List.chain'_cons, ← ih]
          simp [sortedByBlockColumn]

theorem owner_mono_of_sorted (cs cols : List Nat)
    (hs : sortedByBlockColumn cs cols = true) {i j : Nat}
    (hij : i ≤ j) (hj : j < cols.length) :
    ownerOf cs (cols.getD i 0) ≤ ownerOf cs (cols.getD j 0) := by
  rcases Nat.eq_or_lt_of_le hij with rfl | hlt
  · exact le_refl _
  · haveI : IsTrans Nat (fun a b => ownerOf cs a ≤ ownerOf cs b) :=
      ⟨fun _ _ _ => le_trans⟩
    have hp : List.Pairwise (fun a b => ownerOf cs a ≤ ownerOf cs b) cols :=
      List.chain'_iff_pairwise.mp ((sortedByBlockColumn_iff cs cols).mp hs)
    have hi : i < cols.length := lt_trans hlt hj
    rw [List.getD_eq_getElem _ _ hi, List.getD_eq_getElem _ _ hj]
    exact (List.pairwise_iff_getElem.mp hp) i j hi hj hlt

theorem lastOwner_eq_getD (cs cols : List Nat) (h : cols ≠ []) :
    lastOwner cs cols = ownerOf cs (cols.getD (cols.length - 1) 0) := by
  rcases List.eq_nil_or_concat cols with rfl | ⟨t, c, rfl⟩
  · exact absurd rfl h
  · rw [List.concat_eq_append] at *
    rw [lastOwner_concat]
    have hlen : (t ++ [c]).length - 1 = t.length := by simp
    have hget : (t ++ [c]).getD ((t ++ [c]).length - 1) 0 = c := by
      rw [hlen, List.getD_eq_getElem _ _ (by simp)]
      simp
    rw [hget]

theorem owner_le_lastOwner (cs cols : List Nat)
    (hs : sortedByBlockColumn cs cols = true) (c : Nat) (hc : c ∈ cols) :
    ownerOf cs c ≤ lastOwner cs cols := by
  obtain ⟨i, hi, rfl⟩ := List.mem_iff_getElem.mp hc
  have hne : cols ≠ [] := by
    intro h
    rw [h] at hi
    exact absurd hi (by simp)
  rw [lastOwner_eq_getD cs cols hne, ← List.getD_eq_getElem cols 0 hi]
  exact owner_mono_of_sorted cs cols hs (by omega) (by omega)

theorem lastOwner_lt_length (cs cols : List Nat)
    (hval : ∀ c ∈ cols, c < cs.sum) (hne : cols ≠ []) :
    lastOwner cs cols < cs.length := by
  rw [lastOwner_eq_getD cs cols hne]
  have hlt : cols.length - 1 < cols.length := by
    cases cols with
    | nil => exact absurd rfl hne
    | cons a t => simp
  exact ownerOf_lt_length cs _
    (hval _ (by rw [List.getD_eq_getElem _ _ hlt]; exact List.getElem_mem _))

theorem runLen_concat (cs cols : List Nat) (c b : Nat) :
    runLen cs (cols ++ [c]) b
      = runLen cs cols b + (if ownerOf cs c = b then 1 else 0) := by
  simp [runLen, List.countP_append, List.countP_cons]

theorem runStart_concat (cs cols : List Nat) (c b : Nat) :
    runStart cs (cols ++ [c]) b
      = runStart cs cols b + (if ownerOf cs c < b then 1 else 0) := by
  simp [runStart, List.countP_append, List.countP_cons]

theorem runStart_zero (cs cols : List Nat) : runStart cs cols 0 = 0 := by
  simp [runStart]

theorem runStart_succ (cs cols : List Nat) (b : Nat) :
    runStart cs cols (b + 1) = runStart cs cols b + runLen cs cols b := by
  induction cols with
  | nil => rfl
  | cons c t ih =>
      simp only [runStart, runLen, List.countP_cons, decide_eq_true_eq,
        beq_iff_eq] at ih ⊢
      split_ifs <;> omega

theorem runStart_add_runLen (cs cols : List Nat) (b : Nat) :
    runStart cs cols b + runLen cs cols b
      = cols.countP (fun c => decide (ownerOf cs c ≤ b)) := by
  rw [← runStart_succ]
  unfold runStart
  congr 1
  funext c
  simp [Nat.lt_succ_iff]

theorem runStart_all (cs cols : List Nat) (B : Nat)
    (h : ∀ c ∈ cols, ownerOf cs c < B) : runStart cs cols B = cols.length := by
  unfold runStart
  exact List.countP_eq_length.mpr (fun c hc => by simpa using h c hc)

theorem runLen_eq_zero_of_lastOwner_lt (cs cols : List Nat)
    (hs : sortedByBlockColumn cs cols = true) (b : Nat)
    (hb : lastOwner cs cols < b) : runLen cs cols b = 0 := by
  unfold runLen
  refine List.countP_eq_zero.mpr (fun c hc => ?_)
  have := owner_le_lastOwner cs cols hs c hc
  simp only [beq_iff_eq]
  omega

theorem runStart_add_runLen_le (cs cols : List Nat) (b : Nat) :
    runStart cs cols b + runLen cs cols b ≤ cols.length := by
  rw [runStart_add_runLen]
  exact List.countP_le_length _

theorem owner_eq_of_mem_run (cs cols : List Nat)
    (hs : sortedByBlockColumn cs cols = true) (b j : Nat)
    (hj : j < cols.length)
    (h1 : runStart cs cols b ≤ j)
    (h2 : j < runStart cs cols b + runLen cs cols b) :
    ownerOf cs (cols.getD j 0) = b := by
  by_contra hne
  rcases Nat.lt_or_ge (ownerOf cs (cols.getD j 0)) b with hlt | hge
  · -- all of the first j+1 elements have owner < b, so runStart b > j
    have htk : (cols.take (j + 1)).length = j + 1 := by
      rw [List.length_take]
      omega
    have hcnt' : List.countP (fun c => decide (ownerOf cs c < b))
        (cols.take (j + 1)) = (cols.take (j + 1)).length := by
      refine List.countP_eq_length.mpr (fun x hx => ?_)
      obtain ⟨i, hi, rfl⟩ := List.mem_iff_getElem.mp hx
      rw [List.getElem_take]
      have hij : i ≤ j := by
        rw [htk] at hi
        omega
      have hi' : i < cols.length := by omega
      rw [← List.getD_eq_getElem cols 0 hi']
      have := owner_mono_of_sorted cs cols hs hij hj
      simp only [decide_eq_true_eq]
      omega
    have hcnt : List.countP (fun c => decide (ownerOf cs c < b))
        (cols.take (j + 1)) = j + 1 := by rw [hcnt', htk]
    have hsplit : runStart cs cols b
        = List.countP (fun c => decide (ownerOf cs c < b)) (cols.take (j + 1))
          + List.countP (fun c => decide (ownerOf cs c < b)) (cols.drop (j + 1)) := by
      rw [runStart, ← List.countP_append, List.take_append_drop]
    omega
  · -- b < owner of column j: from position j on no owner is ≤ b
    have hb : b < ownerOf cs (cols.getD j 0) := by omega
    have hcnt0 : List.countP (fun c => decide (ownerOf cs c ≤ b))
        (cols.drop j) = 0 := by
      refine List.countP_eq_zero.mpr (fun x hx => ?_)
      obtain ⟨i, hi, rfl⟩ := List.mem_iff_getElem.mp hx
      rw [List.getElem_drop]
      have hji : j + i < cols.length := by
        rw [List.length_drop] at hi
        omega
      rw [← List.getD_eq_getElem cols 0 hji]
      have := owner_mono_of_sorted cs cols hs (Nat.le_add_right j i) hji
      simp only [decide_eq_true_eq]
      omega
    have hcntj : List.countP (fun c => decide (ownerOf cs c ≤ b))
        (cols.take j) ≤ j := by
      calc List.countP (fun c => decide (ownerOf cs c ≤ b)) (cols.take j)
          ≤ (cols.take j).length := List.countP_le_length _
        _ ≤ j := by rw [List.length_take]; omega
    have hsplit : runStart cs cols b + runLen cs cols b
        = List.countP (fun c => decide (ownerOf cs c ≤ b)) (cols.take j)
          + List.countP (fun c => decide (ownerOf cs c ≤ b)) (cols.drop j) := by
      rw [runStart_add_runLen, ← List.countP_append, List.take_append_drop]
    omega

theorem getD_set_self (l : List Nat) (i v : Nat) (h : i < l.length) :
    (l.set i v).getD i 0 = v := by
  rw [List.getD_eq_getElem _ _ (by simpa using h), List.getElem_set]
  simp

theorem getD_set_ne (l : List Nat) (i k v : Nat) (h : i ≠ k) :
    (l.set i v).getD k 0 = l.getD k 0 := by
  rw [List.getD_eq_getElem?_getD, List.getD_eq_getElem?_getD, List.getElem?_set]
  simp [h]

theorem getD_replicate_zero (n b : Nat) :
    (List.replicate n (0 : Nat)).getD b 0 = 0 := by
  rw [List.getD_eq_getElem?_getD, List.getElem?_replicate]
  split <;> rfl

theorem length_resizeTo (l : List Nat) (n : Nat) : (resizeTo l n).length = n := by
  simp [resizeTo]
  omega

theorem setCk_ok (l : List Nat) (i v : Nat) (h : i < l.length) :
    setCk l i v = .ok (l.set i v) := by
  simp [setCk, h]

theorem runLen_lastOwner_ne_zero (cs xs : List Nat) (h : xs ≠ []) :
    runLen cs xs (lastOwner cs xs) ≠ 0 := by
  have hlt : xs.length - 1 < xs.length := by
    cases xs with
    | nil => exact absurd rfl h
    | cons a t => simp
  have hmem : xs.getD (xs.length - 1) 0 ∈ xs := by
    rw [List.getD_eq_getElem _ _ hlt]
    exact List.getElem_mem _
  have : 0 < runLen cs xs (lastOwner cs xs) := by
    unfold runLen
    rw [List.countP_pos_iff]
    exact ⟨_, hmem, by simp [lastOwner_eq_getD cs xs h]⟩
  omega

theorem runLen_ne_zero_le_lastOwner (cs xs : List Nat)
    (hs : sortedByBlockColumn cs xs = true) (b : Nat)
    (h : runLen cs xs b ≠ 0) : b ≤ lastOwner cs xs := by
  by_contra hb
  exact h (runLen_eq_zero_of_lastOwner_lt cs xs hs b (by omega))

theorem sorted_of_concat (cs xs : List Nat) (c : Nat)
    (h : sortedByBlockColumn cs (xs ++ [c]) = true) :
    sortedByBlockColumn cs xs = true := by
  rw [sortedByBlockColumn_iff] at h ⊢
  exact (List.chain'_append.mp h).1

theorem lastOwner_le_owner_of_concat (cs xs : List Nat) (c : Nat)
    (h : sortedByBlockColumn cs (xs ++ [c]) = true) :
    lastOwner cs xs ≤ ownerOf cs c := by
  rcases eq_or_ne xs [] with rfl | hne
  · simp [lastOwner]
  · rw [sortedByBlockColumn_iff] at h
    have hrel := (List.chain'_append.mp h).2.2
    have hlast : xs.getLast? = some (xs.getLast hne) := List.getLast?_eq_getLast xs hne
    have := hrel (xs.getLast hne) (by rw [hlast]; rfl) c rfl
    have heq : lastOwner cs xs = ownerOf cs (xs.getLast hne) := by
      rw [lastOwner, List.getLastD_eq_getLast?, List.getLast?_map, hlast]
      rfl
    omega

theorem partStep1_stay (cs : List Nat) (c j : Nat) (st : PartState)
    (hlen : j < st.local_col_indices.length)
    (heq : (globalToLocal cs c).1 = st.currentBlock) :
    partStep1 cs c j st = .ok ⟨st.currentBlock, st.rowLength + 1,
      st.block_col_indices, st.local_row_length,
      st.local_col_indices.set j (globalToLocal cs c).2⟩ := by
  simp only [partStep1, setCk_ok _ _ _ hlen]
  simp [heq]

theorem partStep1_advance (cs : List Nat) (c j : Nat) (st : PartState)
    (hlen : j < st.local_col_indices.length)
    (hlt : st.currentBlock < (globalToLocal cs c).1)
    (hcur : st.currentBlock < st.local_row_length.length)
    (ho : (globalToLocal cs c).1 < st.block_col_indices.length) :
    partStep1 cs c j st = .ok ⟨(globalToLocal cs c).1, 1,
      st.block_col_indices.set (globalToLocal cs c).1 j,
      st.local_row_length.set st.currentBlock st.rowLength,
      st.local_col_indices.set j (globalToLocal cs c).2⟩ := by
  simp only [partStep1, setCk_ok _ _ _ hlen, setCk_ok _ _ _ hcur,
    setCk_ok _ _ _ ho]
  simp only [hlt, if_true]
  rfl

theorem partStep1_error (cs : List Nat) (c j : Nat) (st : PartState)
    (hlen : j < st.local_col_indices.length)
    (hlt : (globalToLocal cs c).1 < st.currentBlock) :
    partStep1 cs c j st = .error .internalError := by
  have h1 : ¬ st.currentBlock < (globalToLocal cs c).1 := by omega
  have h2 : ¬ (globalToLocal cs c).1 = st.currentBlock := by omega
  simp only [partStep1, setCk_ok _ _ _ hlen]
  simp only [h1, if_false, h2]
  rfl

theorem partAux_append (cs xs ys : List Nat) :
    ∀ (j : Nat) (st : PartState),
      partAux cs (xs ++ ys) j st
        = (partAux cs xs j st) >>= (fun s => partAux cs ys (j + xs.length) s) := by
  induction xs with
  | nil =>
      intro j st
      rfl
  | cons c t ih =>
      intro j st
      simp only [List.cons_append, partAux]
      cases h : partStep1 cs c j st with
      | error e => rfl
      | ok s =>
          have harr : j + 1 + t.length = j + (t.length + 1) := by omega
          show partAux cs (t ++ ys) (j + 1) s
              = (partAux cs t (j + 1) s) >>= (fun u => partAux cs ys (j + (t.length + 1)) u)
          rw [ih (j + 1) s, harr]

theorem set_map_append (cs xs lciI : List Nat) (v : Nat)
    (h : xs.length < lciI.length) :
    ((xs.map (localOf cs) ++ lciI.drop xs.length).set xs.length v)
      = xs.map (localOf cs) ++ v :: lciI.drop (xs.length + 1) := by
  rw [List.set_append]
  have hlen : (xs.map (localOf cs)).length = xs.length := by simp
  rw [if_neg (by omega)]
  congr 1
  rw [hlen, Nat.sub_self, List.drop_eq_getElem_cons h]
  rfl

theorem partAux_sorted (cs : List Nat) (hB : 1 ≤ cs.length)
    (cols : List Nat) (bciI lciI : List Nat)
    (hbl : bciI.length = cs.length) (hb0 : bciI.getD 0 0 = 0)
    (hval : ∀ c ∈ cols, c < cs.sum)
    (hsort : sortedByBlockColumn cs cols = true)
    (hll : cols.length ≤ lciI.length) :
    ∃ st : PartState,
      partAux cs cols 0 ⟨0, 0, bciI, List.replicate cs.length 0, lciI⟩ = .ok st
        ∧ PartInvariant cs cols lciI st := by
  revert hval hsort hll
  induction cols using List.reverseRecOn with
  | nil =>
      intro hval hsort hll
      refine ⟨_, rfl, ?_⟩
      constructor
      · rfl
      · rfl
      · exact hbl
      · exact hb0
      · intro b hb
        exact absurd rfl hb
      · simp
      · intro b
        simp [getD_replicate_zero, lastOwner]
      · simp
  | append_singleton xs c ih =>
      intro hval hsort hll
      have hval' : ∀ x ∈ xs, x < cs.sum :=
        fun x hx => hval x (List.mem_append_left _ hx)
      have hvc : c < cs.sum :=
        hval c (List.mem_append_right _ (List.mem_singleton_self c))
      have hsort' := sorted_of_concat cs xs c hsort
      have hll1 : xs.length + 1 ≤ lciI.length := by simpa using hll
      have hll' : xs.length ≤ lciI.length := by omega
      obtain ⟨st, hok, inv⟩ := ih hval' hsort' hll'
      have hoc : (globalToLocal cs c).1 = ownerOf cs c := rfl
      have hlciLen : st.local_col_indices.length = lciI.length := by
        rw [inv.lci]
        simp
        omega
      have hjlt : xs.length < lciI.length := by omega
      have hlen : xs.length < st.local_col_indices.length := by omega
      have hlci' : st.local_col_indices.set xs.length (globalToLocal cs c).2
          = (xs ++ [c]).map (localOf cs) ++ lciI.drop (xs ++ [c]).length := by
        rw [inv.lci, set_map_append cs xs lciI _ hjlt]
        simp [localOf]
      have hle : lastOwner cs xs ≤ ownerOf cs c :=
        lastOwner_le_owner_of_concat cs xs c hsort
      have hstep : ∀ st1 : PartState, partStep1 cs c xs.length st = .ok st1 →
          partAux cs (xs ++ [c]) 0
            ⟨0, 0, bciI, List.replicate cs.length 0, lciI⟩ = .ok st1 := by
        intro st1 h1
        rw [partAux_append, hok]
        show partAux cs [c] (0 + xs.length) st = .ok st1
        rw [Nat.zero_add]
        show (partStep1 cs c xs.length st) >>= (fun s => partAux cs [] (xs.length + 1) s) = .ok st1
        rw [h1]
        rfl
      rcases eq_or_lt_of_le hle with heq | hlt
      · -- the new column stays in the current block-column
        have hcur1 : (globalToLocal cs c).1 = st.currentBlock := by
          rw [hoc, inv.cur, heq]
        refine ⟨_, hstep _ (partStep1_stay cs c xs.length st hlen hcur1), ?_⟩
        constructor
        · show st.currentBlock = lastOwner cs (xs ++ [c])
          rw [lastOwner_concat, inv.cur, heq]
        · show st.rowLength + 1 = runLen cs (xs ++ [c]) (lastOwner cs (xs ++ [c]))
          rw [lastOwner_concat, runLen_concat, if_pos rfl, inv.rl, heq]
        · exact inv.bciLen
        · exact inv.bciZero
        · intro b hb
          rw [runLen_concat] at hb
          by_cases hbx : runLen cs xs b = 0
          · have hbc : ownerOf cs c = b := by
              by_contra hne
              rw [hbx, if_neg hne] at hb
              exact hb rfl
            have hxs : xs = [] := by
              by_contra hne
              exact runLen_lastOwner_ne_zero cs xs hne (by rw [heq, hbc]; exact hbx)
            have hb0' : b = 0 := by
              rw [← hbc, ← heq, hxs]
              rfl
            show st.block_col_indices.getD b 0 = runStart cs (xs ++ [c]) b
            rw [hb0', runStart_zero]
            exact inv.bciZero
          · have hble : b ≤ lastOwner cs xs :=
              runLen_ne_zero_le_lastOwner cs xs hsort' b hbx
            show st.block_col_indices.getD b 0 = runStart cs (xs ++ [c]) b
            rw [runStart_concat, if_neg (by omega), inv.bci b hbx]
            omega
        · exact inv.lrlLen
        · intro b
          show st.local_row_length.getD b 0
            = if b < lastOwner cs (xs ++ [c]) then runLen cs (xs ++ [c]) b else 0
          rw [lastOwner_concat, ← heq, inv.lrl b]
          by_cases hbl : b < lastOwner cs xs
          · rw [if_pos hbl, if_pos hbl, runLen_concat,
              if_neg (by rw [heq] at hbl; omega)]
            omega
          · rw [if_neg hbl, if_neg hbl]
        · show st.local_col_indices.set xs.length (globalToLocal cs c).2
            = (xs ++ [c]).map (localOf cs) ++ lciI.drop (xs ++ [c]).length
          exact hlci'
      · -- the new column advances to a strictly larger block-column
        have hcur1 : st.currentBlock < (globalToLocal cs c).1 := by
          rw [hoc, inv.cur]
          exact hlt
        have hcur2 : st.currentBlock < st.local_row_length.length := by
          rw [inv.lrlLen, inv.cur]
          rcases eq_or_ne xs [] with rfl | hne
          · simpa [lastOwner] using hB
          · exact lastOwner_lt_length cs xs hval' hne
        have ho : (globalToLocal cs c).1 < st.block_col_indices.length := by
          rw [inv.bciLen, hoc]
          exact ownerOf_lt_length cs c hvc
        have hocne : ownerOf cs c ≠ 0 := by omega
        refine ⟨_, hstep _ (partStep1_advance cs c xs.length st hlen hcur1 hcur2 ho), ?_⟩
        constructor
        · show (globalToLocal cs c).1 = lastOwner cs (xs ++ [c])
          rw [lastOwner_concat, hoc]
        · show 1 = runLen cs (xs ++ [c]) (lastOwner cs (xs ++ [c]))
          rw [lastOwner_concat, runLen_concat, if_pos rfl,
            runLen_eq_zero_of_lastOwner_lt cs xs hsort' _ hlt]
        · rw [List.length_set]
          exact inv.bciLen
        · show (st.block_col_indices.set (globalToLocal cs c).1 xs.length).getD 0 0 = 0
          rw [hoc, getD_set_ne _ _ _ _ hocne]
          exact inv.bciZero
        · intro b hb
          rw [runLen_concat] at hb
          show (st.block_col_indices.set (globalToLocal cs c).1 xs.length).getD b 0
            = runStart cs (xs ++ [c]) b
          by_cases hbo : b = ownerOf cs c
          · subst hbo
            rw [hoc, getD_set_self _ _ _ (by rw [← hoc]; exact ho)]
            rw [runStart_concat, if_neg (by omega), runStart_all cs xs (ownerOf cs c)
              (fun x hx => lt_of_le_of_lt (owner_le_lastOwner cs xs hsort' x hx) hlt)]
            omega
          · have hbx : runLen cs xs b ≠ 0 := by
              rw [if_neg (fun h => hbo h.symm)] at hb
              simpa using hb
            have hble : b ≤ lastOwner cs xs :=
              runLen_ne_zero_le_lastOwner cs xs hsort' b hbx
            rw [hoc, getD_set_ne _ _ _ _ (fun h => hbo h.symm)]
            rw [runStart_concat, if_neg (by omega), inv.bci b hbx]
            omega
        · rw [List.length_set]
          exact inv.lrlLen
        · intro b
          show (st.local_row_length.set st.currentBlock st.rowLength).getD b 0
            = if b < lastOwner cs (xs ++ [c]) then runLen cs (xs ++ [c]) b else 0
          rw [lastOwner_concat]
          by_cases hbc : b = st.currentBlock
          · subst hbc
            rw [getD_set_self _ _ _ hcur2, inv.rl, inv.cur]
            rw [if_pos hlt, runLen_concat, if_neg (by omega)]
            omega
          · rw [getD_set_ne _ _ _ _ (fun h => hbc h.symm), inv.lrl b]
            by_cases hbl : b < lastOwner cs xs
            · rw [if_pos hbl, if_pos (by omega), runLen_concat,
                if_neg (by omega)]
              omega
            · have hbgt : lastOwner cs xs < b := by
                rcases Nat.lt_trichotomy b (lastOwner cs xs) with h | h | h
                · exact absurd h hbl
                · exact absurd (h.trans inv.cur.symm) hbc
                · exact h
              rw [if_neg hbl]
              by_cases hbo : b < ownerOf cs c
              · rw [if_pos hbo, runLen_concat, if_neg (by omega),
                  runLen_eq_zero_of_lastOwner_lt cs xs hsort' b hbgt]
              · rw [if_neg hbo]
        · show st.local_col_indices.set xs.length (globalToLocal cs c).2
            = (xs ++ [c]).map (localOf cs) ++ lciI.drop (xs ++ [c]).length
          exact hlci'

theorem except_ok_bind {eps alpha beta : Type} (a : alpha)
    (f : alpha → Except eps beta) : (Except.ok a >>= f) = f a := rfl

theorem sum_indicator_zero (B o : Nat) (h : B ≤ o) :
    ((List.range B).map (fun b => if o = b then (1 : Nat) else 0)).sum = 0 := by
  refine List.sum_eq_zero (fun x hx => ?_)
  obtain ⟨b, hb, rfl⟩ := List.mem_map.mp hx
  have : b < B := List.mem_range.mp hb
  rw [if_neg (by omega)]

theorem sum_indicator_one (B o : Nat) (h : o < B) :
    ((List.range B).map (fun b => if o = b then (1 : Nat) else 0)).sum = 1 := by
  induction B with
  | zero => omega
  | succ B ih =>
      rw [List.range_succ, List.map_append, List.sum_append]
      rcases Nat.lt_or_ge o B with h2 | h2
      · rw [ih h2]
        have hne : o ≠ B := by omega
        simp [hne]
      · have ho : o = B := by omega
        rw [ho, sum_indicator_zero B B (le_refl B)]
        simp

theorem sum_map_add_nat (l : List Nat) (f g : Nat → Nat) :
    (l.map (fun x => f x + g x)).sum = (l.map f).sum + (l.map g).sum := by
  induction l with
  | nil => rfl
  | cons a t ih =>
      simp only [List.map_cons, List.sum_cons, ih]
      omega

theorem sum_runLen (cs : List Nat) (cols : List Nat) (B : Nat)
    (h : ∀ c ∈ cols, ownerOf cs c < B) :
    ((List.range B).map (fun b => runLen cs cols b)).sum = cols.length := by
  induction cols with
  | nil => simp [runLen]
  | cons c t ih =>
      have hc : ownerOf cs c < B := h c (List.mem_cons_self c t)
      have ht : ∀ x ∈ t, ownerOf cs x < B :=
        fun x hx => h x (List.mem_cons_of_mem c hx)
      have hsplit : ((List.range B).map (fun b => runLen cs (c :: t) b))
          = (List.range B).map
            (fun b => runLen cs t b + (if ownerOf cs c = b then 1 else 0)) := by
        refine List.map_congr_left (fun b _ => ?_)
        simp [runLen, List.countP_cons]
      rw [hsplit, sum_map_add_nat, ih ht, sum_indicator_one B _ hc]
      simp

theorem runPart_sorted (cs cols bci0 lci0 : List Nat) (hB : 1 ≤ cs.length)
    (hval : ∀ c ∈ cols, c < cs.sum)
    (hsort : sortedByBlockColumn cs cols = true) :
    ∃ st : PartState,
      runPart cs cols bci0 lci0 = .ok st
        ∧ st.local_col_indices = cols.map (localOf cs)
        ∧ (∀ b, st.local_row_length.getD b 0 = runLen cs cols b)
        ∧ (∀ b, runLen cs cols b ≠ 0 →
            st.block_col_indices.getD b 0 = runStart cs cols b)
        ∧ st.local_row_length.length = cs.length
        ∧ st.block_col_indices.length = cs.length := by
  have h0len : 0 < (resizeTo bci0 cs.length).length := by
    rw [length_resizeTo]
    omega
  have hbl : ((resizeTo bci0 cs.length).set 0 0).length = cs.length := by
    rw [List.length_set, length_resizeTo]
  have hb0 : ((resizeTo bci0 cs.length).set 0 0).getD 0 0 = 0 :=
    getD_set_self _ _ _ h0len
  have hll : cols.length ≤ (resizeTo lci0 cols.length).length := by
    rw [length_resizeTo]
  obtain ⟨st, hok, inv⟩ := partAux_sorted cs hB cols _ _ hbl hb0 hval hsort hll
  have hlast : lastOwner cs cols < cs.length := by
    rcases eq_or_ne cols [] with rfl | hne
    · simpa [lastOwner] using hB
    · exact lastOwner_lt_length cs cols hval hne
  have hcur : st.currentBlock < st.local_row_length.length := by
    rw [inv.lrlLen, inv.cur]
    exact hlast
  have hccs : st.currentBlock < cs.length := by
    rw [inv.cur]
    exact hlast
  have hlrl : ∀ b, (st.local_row_length.set st.currentBlock st.rowLength).getD b 0
      = runLen cs cols b := by
    intro b
    by_cases hbc : b = st.currentBlock
    · subst hbc
      rw [getD_set_self _ _ _ hcur, inv.rl, inv.cur]
    · rw [getD_set_ne _ _ _ _ (fun h => hbc h.symm), inv.lrl b]
      by_cases hbl2 : b < lastOwner cs cols
      · rw [if_pos hbl2]
      · have hgt : lastOwner cs cols < b := by
          rcases Nat.lt_trichotomy b (lastOwner cs cols) with h | h | h
          · exact absurd h hbl2
          · exact absurd (h.trans inv.cur.symm) hbc
          · exact h
        rw [if_neg hbl2,
          runLen_eq_zero_of_lastOwner_lt cs cols hsort b hgt]
  have hsum : ((List.range cs.length).map
      (fun i => (st.local_row_length.set st.currentBlock st.rowLength).getD i 0)).sum
      = cols.length := by
    have hmc : ((List.range cs.length).map
        (fun i => (st.local_row_length.set st.currentBlock st.rowLength).getD i 0))
        = (List.range cs.length).map (fun b => runLen cs cols b) :=
      List.map_congr_left (fun b _ => hlrl b)
    rw [hmc]
    exact sum_runLen cs cols cs.length
      (fun c hc => ownerOf_lt_length cs c (hval c hc))
  refine ⟨{ st with
      local_row_length := st.local_row_length.set st.currentBlock st.rowLength },
    ?_, ?_, hlrl, inv.bci, ?_, inv.bciLen⟩
  · simp only [runPart, setCk_ok _ _ _ h0len, except_ok_bind]
    rw [hok]
    simp only [except_ok_bind]
    rw [setCk_ok _ _ _ hcur]
    simp only [except_ok_bind]
    rw [if_pos hccs, if_pos hsum]
    rfl
  · show st.local_col_indices = cols.map (localOf cs)
    rw [inv.lci, List.drop_eq_nil_of_le (by rw [length_resizeTo]),
      List.append_nil]
  · show (st.local_row_length.set st.currentBlock st.rowLength).length = cs.length
    rw [List.length_set]
    exact inv.lrlLen

theorem applyCallSet_eq_foldl (M : Mat) (call : BlockCall) :
    applyCallSet M call = (callUpds call).foldl applyUpd M := by
  unfold applyCallSet callUpds
  rw [List.foldl_map]
  rfl

theorem foldl_applyCallSet (calls : List BlockCall) :
    ∀ M : Mat, calls.foldl applyCallSet M
      = (calls.flatMap callUpds).foldl applyUpd M := by
  induction calls with
  | nil => intro M; rfl
  | cons call t ih =>
      intro M
      rw [List.foldl_cons, List.flatMap_cons, List.foldl_append,
        applyCallSet_eq_foldl, ih]

theorem foldl_flatMap {α β γ : Type} (f : β → α → β) (g : γ → List α)
    (l : List γ) : ∀ init : β,
    (l.flatMap g).foldl f init = l.foldl (fun acc x => (g x).foldl f acc) init := by
  induction l with
  | nil => intro init; rfl
  | cons a t ih =>
      intro init
      rw [List.flatMap_cons, List.foldl_append, List.foldl_cons, ih]

theorem filterMap_eq_flatMap {α β : Type} (f : α → Option β) (l : List α) :
    l.filterMap f = l.flatMap (fun x => (f x).toList) := by
  induction l with
  | nil => rfl
  | cons a t ih =>
      cases h : f a <;> simp [List.filterMap_cons, h, ih]

theorem getD_map_lt {α β : Type} (f : α → β) (l : List α) (j : Nat)
    (d : α) (d2 : β) (h : j < l.length) :
    (l.map f).getD j d2 = f (l.getD j d) := by
  rw [List.getD_eq_getElem _ _ (by simpa using h), List.getElem_map,
    List.getD_eq_getElem _ _ h]

theorem zip_take_drop {α β : Type} (d1 : α) (d2 : β) (l1 : List α)
    (l2 : List β) (a b k : Nat)
    (h1 : a + k ≤ l1.length) (h2 : b + k ≤ l2.length) :
    ((l1.drop a).take k).zip ((l2.drop b).take k)
      = (List.range k).map (fun t => (l1.getD (a + t) d1, l2.getD (b + t) d2)) := by
  have hlen1 : ((l1.drop a).take k).length = k := by
    rw [List.length_take, List.length_drop]
    omega
  have hlen2 : ((l2.drop b).take k).length = k := by
    rw [List.length_take, List.length_drop]
    omega
  refine List.ext_getElem ?_ ?_
  · rw [List.length_zip, hlen1, hlen2]
    simp
  · intro n hn1 hn2
    have hnk : n < k := by
      rw [List.length_zip, hlen1, hlen2] at hn1
      omega
    rw [List.getElem_zip, List.getElem_take, List.getElem_drop,
      List.getElem_take, List.getElem_drop, List.getElem_map, List.getElem_range]
    rw [List.getD_eq_getElem _ _ (by omega), List.getD_eq_getElem _ _ (by omega)]

theorem map_range'_eq {γ : Type} (k s : Nat) (f : Nat → γ) :
    (List.range k).map (fun t => f (s + t)) = (List.range' s k).map f := by
  rw [List.range'_eq_map_range, List.map_map]
  rfl

theorem range'_append_one (s m n : Nat) :
    List.range' s m ++ List.range' (s + m) n = List.range' s (m + n) := by
  have h := List.range'_append s m n 1
  simp only [Nat.one_mul] at h
  rw [h, Nat.add_comm n m]

theorem flatMap_range'_of_rec (s l : Nat → Nat)
    (hrec : ∀ b, s (b + 1) = s b + l b) :
    ∀ B, (List.range B).flatMap (fun b => List.range' (s b) (l b))
      = List.range' (s 0) (s B - s 0) := by
  intro B
  induction B with
  | zero => simp
  | succ B ih =>
      have hmono : s 0 ≤ s B := by
        clear ih
        induction B with
        | zero => exact le_refl _
        | succ n ihn =>
            rw [hrec n]
            omega
      rw [List.range_succ, List.flatMap_append, ih]
      have hsingle : ([B] : List Nat).flatMap (fun b => List.range' (s b) (l b))
          = List.range' (s B) (l B) := by simp
      rw [hsingle]
      set m := s B - s 0 with hm
      have hsb : s B = s 0 + m := by omega
      rw [hsb, range'_append_one]
      congr 1
      rw [hrec B]
      omega

theorem dispatchCalls_char (row_sizes cs cols rows : List Nat) (vals : List ℚ)
    (st : PartState)
    (hlci : st.local_col_indices = cols.map (localOf cs))
    (hlrl : ∀ b, st.local_row_length.getD b 0 = runLen cs cols b)
    (hbci : ∀ b, runLen cs cols b ≠ 0 →
      st.block_col_indices.getD b 0 = runStart cs cols b) :
    dispatchCalls row_sizes cs.length cols.length st rows vals
      = (List.range rows.length).flatMap (fun i =>
          (List.range cs.length).filterMap (fun bc =>
            if runLen cs cols bc = 0 then none
            else some (runCall row_sizes cs cols rows vals i bc))) := by
  unfold dispatchCalls
  refine List.flatMap_congr (fun i _ => ?_)
  refine List.filterMap_congr (fun bc _ => ?_)
  rw [hlrl bc]
  by_cases h : runLen cs cols bc = 0
  · rw [if_pos h, if_pos h]
  · rw [if_neg h, if_neg h, hbci bc h, hlci]
    rfl

theorem rowCalls_flat (row_sizes cs cols rows : List Nat) (vals : List ℚ)
    (hval : ∀ c ∈ cols, c < cs.sum)
    (hsort : sortedByBlockColumn cs cols = true)
    (hlen : vals.length = rows.length * cols.length)
    (i : Nat) (hi : i < rows.length) :
    ((List.range cs.length).filterMap (fun bc =>
        if runLen cs cols bc = 0 then none
        else some (runCall row_sizes cs cols rows vals i bc))).flatMap callUpds
      = (List.range cols.length).map
          (rowUpd row_sizes cs rows cols vals i) := by
  rw [filterMap_eq_flatMap, List.flatMap_assoc]
  have hper : ∀ bc ∈ List.range cs.length,
      ((if runLen cs cols bc = 0 then none
        else some (runCall row_sizes cs cols rows vals i bc)).toList).flatMap
          callUpds
        = (List.range' (runStart cs cols bc) (runLen cs cols bc)).map
            (rowUpd row_sizes cs rows cols vals i) := by
    intro bc _
    by_cases h : runLen cs cols bc = 0
    · rw [if_pos h, h]
      rfl
    · rw [if_neg h]
      have hflat : ((some (runCall row_sizes cs cols rows vals i bc)).toList).flatMap
          callUpds = callUpds (runCall row_sizes cs cols rows vals i bc) := by
        simp
      rw [hflat]
      have h1 : runStart cs cols bc + runLen cs cols bc
          ≤ (cols.map (localOf cs)).length := by
        rw [List.length_map]
        exact runStart_add_runLen_le cs cols bc
      have h2 : (cols.length * i + runStart cs cols bc) + runLen cs cols bc
          ≤ vals.length := by
        have hs := runStart_add_runLen_le cs cols bc
        have hm : cols.length * (i + 1) ≤ cols.length * rows.length :=
          Nat.mul_le_mul_left _ (by omega)
        have hd : cols.length * (i + 1) = cols.length * i + cols.length := by
          ring
        have hml : cols.length * rows.length = rows.length * cols.length :=
          Nat.mul_comm _ _
        rw [hlen]
        omega
      unfold callUpds runCall
      simp only
      rw [zip_take_drop 0 0 (cols.map (localOf cs)) vals (runStart cs cols bc)
        (cols.length * i + runStart cs cols bc) (runLen cs cols bc) h1 h2]
      rw [List.map_map]
      rw [← map_range'_eq]
      refine List.map_congr_left (fun t ht => ?_)
      have htl : t < runLen cs cols bc := List.mem_range.mp ht
      have hjl : runStart cs cols bc + t < cols.length := by
        have := runStart_add_runLen_le cs cols bc
        omega
      have howner : (globalToLocal cs (cols.getD (runStart cs cols bc + t) 0)).1
          = bc :=
        owner_eq_of_mem_run cs cols hsort bc _ hjl (by omega) (by omega)
      have hlocal : (cols.map (localOf cs)).getD (runStart cs cols bc + t) 0
          = (globalToLocal cs (cols.getD (runStart cs cols bc + t) 0)).2 :=
        getD_map_lt (localOf cs) cols _ 0 0 hjl
      unfold rowUpd
      simp only [Function.comp]
      rw [hlocal, howner, Nat.add_assoc]
  rw [List.flatMap_congr hper, ← List.map_flatMap]
  rw [flatMap_range'_of_rec (runStart cs cols) (runLen cs cols)
    (runStart_succ cs cols) cs.length]
  rw [runStart_zero, Nat.sub_zero,
    runStart_all cs cols cs.length
      (fun c hc => ownerOf_lt_length cs c (hval c hc)),
    ← List.range_eq_range']

theorem pairwiseSet_eq_foldl (row_sizes cs : List Nat) (M : Mat)
    (rows cols : List Nat) (vals : List ℚ) :
    pairwiseSet row_sizes cs M rows cols vals
      = ((List.range rows.length).flatMap (fun i =>
          (List.range cols.length).map
            (rowUpd row_sizes cs rows cols vals i))).foldl applyUpd M := by
  rw [foldl_flatMap]
  unfold pairwiseSet
  congr 1
  funext m i
  rw [List.foldl_map]
  rfl

theorem bulkSet_eq_pairwiseSet (row_sizes cs : List Nat) (M : Mat)
    (rows cols : List Nat) (vals : List ℚ) (bci0 lci0 : List Nat)
    (hB : 1 ≤ cs.length)
    (hval : ∀ c ∈ cols, c < cs.sum)
    (hsort : sortedByBlockColumn cs cols = true)
    (hlen : vals.length = rows.length * cols.length) :
    bulkSet row_sizes cs M rows cols vals bci0 lci0
      = .ok (pairwiseSet row_sizes cs M rows cols vals) := by
  obtain ⟨st, hok, hlci, hlrl, hbci, _, _⟩ :=
    runPart_sorted cs cols bci0 lci0 hB hval hsort
  unfold bulkSet
  rw [hok, except_ok_bind]
  rw [dispatchCalls_char row_sizes cs cols rows vals st hlci hlrl hbci]
  rw [foldl_applyCallSet, List.flatMap_assoc]
  have hrows : ∀ i ∈ List.range rows.length,
      ((List.range cs.length).filterMap (fun bc =>
          if runLen cs cols bc = 0 then none
          else some (runCall row_sizes cs cols rows vals i bc))).flatMap callUpds
        = (List.range cols.length).map
            (rowUpd row_sizes cs rows cols vals i) :=
    fun i hi => rowCalls_flat row_sizes cs cols rows vals hval hsort hlen i
      (List.mem_range.mp hi)
  rw [List.flatMap_congr hrows,
    pairwiseSet_eq_foldl row_sizes cs M rows cols vals]
  rfl

theorem sortedByBlockColumn_cons (cs : List Nat) (x h : Nat) (t : List Nat)
    (hxh : ownerOf cs x ≤ ownerOf cs h)
    (hs : sortedByBlockColumn cs (h :: t) = true) :
    sortedByBlockColumn cs (x :: h :: t) = true := by
  show (decide (ownerOf cs x ≤ ownerOf cs h)
    && sortedByBlockColumn cs (h :: t)) = true
  rw [hs]
  simp [hxh]

theorem descent_of_not_sorted (cs : List Nat) :
    ∀ cols : List Nat, sortedByBlockColumn cs cols = false →
      ∃ p a b q, cols = p ++ a :: b :: q
        ∧ sortedByBlockColumn cs (p ++ [a]) = true
        ∧ ownerOf cs b < ownerOf cs a := by
  intro cols
  induction cols with
  | nil => intro h; simp [sortedByBlockColumn] at h
  | cons x rest ih =>
      cases rest with
      | nil => intro h; simp [sortedByBlockColumn] at h
      | cons y t =>
          intro h
          by_cases hxy : ownerOf cs x ≤ ownerOf cs y
          · have h2 : sortedByBlockColumn cs (y :: t) = false := by
              simp [sortedByBlockColumn, hxy] at h
              exact h
            obtain ⟨p, a, b, q, heq, hsorted, hlt⟩ := ih h2
            refine ⟨x :: p, a, b, q, by rw [List.cons_append, ← heq], ?_, hlt⟩
            cases p with
            | nil =>
                have ha : y = a := by
                  rw [List.nil_append] at heq
                  exact (List.cons.injEq _ _ _ _ ▸ heq).1
                show sortedByBlockColumn cs (x :: a :: []) = true
                exact sortedByBlockColumn_cons cs x a [] (ha ▸ hxy) rfl
            | cons p0 pt =>
                have hp0 : y = p0 := by
                  rw [List.cons_append] at heq
                  exact (List.cons.injEq _ _ _ _ ▸ heq).1
                show sortedByBlockColumn cs (x :: p0 :: (pt ++ [a])) = true
                exact sortedByBlockColumn_cons cs x p0 (pt ++ [a]) (hp0 ▸ hxy)
                  hsorted
          · exact ⟨[], x, y, t, rfl, rfl, by omega⟩

theorem runPart_not_sorted (cs cols bci0 lci0 : List Nat) (hB : 1 ≤ cs.length)
    (hval : ∀ c ∈ cols, c < cs.sum)
    (hsort : sortedByBlockColumn cs cols = false) :
    runPart cs cols bci0 lci0 = .error .internalError := by
  obtain ⟨p, a, b, q, heq, hps, hlt⟩ := descent_of_not_sorted cs cols hsort
  have hclen : cols.length = p.length + q.length + 2 := by
    rw [heq]
    simp only [List.length_append, List.length_cons]
    omega
  have h0len : 0 < (resizeTo bci0 cs.length).length := by
    rw [length_resizeTo]
    omega
  have hbl : ((resizeTo bci0 cs.length).set 0 0).length = cs.length := by
    rw [List.length_set, length_resizeTo]
  have hb0 : ((resizeTo bci0 cs.length).set 0 0).getD 0 0 = 0 :=
    getD_set_self _ _ _ h0len
  have hval' : ∀ x ∈ p ++ [a], x < cs.sum := by
    intro x hx
    refine hval x ?_
    rw [heq]
    rcases List.mem_append.mp hx with h | h
    · exact List.mem_append_left _ h
    · rw [List.mem_singleton] at h
      subst h
      exact List.mem_append_right _ (List.mem_cons_self _ _)
  have hll : (p ++ [a]).length ≤ (resizeTo lci0 cols.length).length := by
    rw [length_resizeTo, hclen]
    simp only [List.length_append, List.length_cons, List.length_nil]
    omega
  obtain ⟨st, hok, inv⟩ := partAux_sorted cs hB (p ++ [a])
    ((resizeTo bci0 cs.length).set 0 0) (resizeTo lci0 cols.length)
    hbl hb0 hval' hps hll
  have hlciLen : st.local_col_indices.length = cols.length := by
    rw [inv.lci, List.length_append, List.length_map, List.length_drop,
      length_resizeTo]
    have h1 : (p ++ [a]).length ≤ cols.length := by
      rw [hclen]
      simp only [List.length_append, List.length_cons, List.length_nil]
      omega
    omega
  have hjlen : (p ++ [a]).length < st.local_col_indices.length := by
    rw [hlciLen, hclen]
    simp only [List.length_append, List.length_cons, List.length_nil]
    omega
  have hcur : (globalToLocal cs b).1 < st.currentBlock := by
    rw [inv.cur, lastOwner_concat]
    exact hlt
  have herr : partAux cs (b :: q) (0 + (p ++ [a]).length) st
      = .error .internalError := by
    rw [Nat.zero_add]
    show (partStep1 cs b (p ++ [a]).length st) >>=
      (fun s => partAux cs q ((p ++ [a]).length + 1) s) = .error .internalError
    rw [partStep1_error cs b _ st hjlen hcur]
    rfl
  simp only [runPart, setCk_ok _ _ _ h0len, except_ok_bind]
  have hpa : partAux cs cols 0
      (⟨0, 0, (resizeTo bci0 cs.length).set 0 0, List.replicate cs.length 0,
        resizeTo lci0 cols.length⟩ : PartState)
      = partAux cs ((p ++ [a]) ++ (b :: q)) 0
        (⟨0, 0, (resizeTo bci0 cs.length).set 0 0, List.replicate cs.length 0,
          resizeTo lci0 cols.length⟩ : PartState) :=
    congrArg
      (fun l => partAux cs l 0
        (⟨0, 0, (resizeTo bci0 cs.length).set 0 0, List.replicate cs.length 0,
          resizeTo lci0 cols.length⟩ : PartState))
      (by rw [heq]; simp)
  rw [hpa, partAux_append, hok, except_ok_bind, herr]
  rfl

theorem runPart_zero_cols (cols bci0 lci0 : List Nat) :
    runPart [] cols bci0 lci0 = .error .oobWrite := by
  have h : ¬ (0 < (resizeTo bci0 ([] : List Nat).length).length) := by
    rw [length_resizeTo]
    simp
  have hsc : setCk (resizeTo bci0 ([] : List Nat).length) 0 0
      = .error .oobWrite := by
    unfold setCk
    rw [if_neg h]
  simp only [runPart, hsc]
  rfl

theorem bulkSet_runPart_error (row_sizes cs : List Nat) (M : Mat)
    (rows cols : List Nat) (vals : List ℚ) (bci0 lci0 : List Nat)
    (e : RouterErr) (h : runPart cs cols bci0 lci0 = .error e) :
    bulkSet row_sizes cs M rows cols vals bci0 lci0 = .error e := by
  unfold bulkSet
  rw [h]
  rfl

theorem bulkAdd_runPart_error (row_sizes cs : List Nat) (M : Mat)
    (rows cols : List Nat) (vals : List ℚ) (bci0 lci0 : List Nat)
    (e : RouterErr) (h : runPart cs cols bci0 lci0 = .error e) :
    bulkAdd row_sizes cs M rows cols vals bci0 lci0 = .error e := by
  unfold bulkAdd
  rw [h]
  rfl

theorem bulkSet_runPart_ok (row_sizes cs : List Nat) (M : Mat)
    (rows cols : List Nat) (vals : List ℚ) (bci0 lci0 : List Nat)
    (st : PartState) (h : runPart cs cols bci0 lci0 = .ok st) :
    bulkSet row_sizes cs M rows cols vals bci0 lci0
      = .ok ((dispatchCalls row_sizes cs.length cols.length st rows
          vals).foldl applyCallSet M) := by
  unfold bulkSet
  rw [h]
  rfl

theorem bulkAdd_runPart_ok (row_sizes cs : List Nat) (M : Mat)
    (rows cols : List Nat) (vals : List ℚ) (bci0 lci0 : List Nat)
    (st : PartState) (h : runPart cs cols bci0 lci0 = .ok st) :
    bulkAdd row_sizes cs M rows cols vals bci0 lci0
      = .ok ((dispatchCalls row_sizes cs.length cols.length st rows
          vals).foldl applyCallAdd M) := by
  unfold bulkAdd
  rw [h]
  rfl

theorem getD_replicate_q (k b : Nat) :
    (List.replicate k (0 : ℚ)).getD b 0 = 0 := by
  rw [List.getD_eq_getElem?_getD, List.getElem?_replicate]
  split <;> rfl

theorem getD_append_left_q (l1 l2 : List ℚ) (i : Nat) (h : i < l1.length) :
    (l1 ++ l2).getD i 0 = l1.getD i 0 := by
  rw [List.getD_eq_getElem _ _ (by rw [List.length_append]; omega),
    List.getD_eq_getElem _ _ h]
  exact List.getElem_append_left h

theorem getD_map_range_q (n : Nat) (g : Nat → ℚ) (i : Nat) (h : i < n) :
    ((List.range n).map g).getD i 0 = g i := by
  rw [List.getD_eq_getElem _ _ (by simpa using h), List.getElem_map,
    List.getElem_range]

theorem take_sum_eq_range_sum (l : List ℚ) :
    ∀ n : Nat, (l.take n).sum
      = ((List.range n).map (fun i => l.getD i 0)).sum := by
  induction l with
  | nil =>
      intro n
      have hz : ∀ i : Nat, ([] : List ℚ).getD i 0 = 0 := fun i => rfl
      simp [hz]
  | cons a t ih =>
      intro n
      cases n with
      | zero => rfl
      | succ n =>
          rw [List.take_succ_cons, List.sum_cons, ih n,
            List.range_succ_eq_map, List.map_cons, List.sum_cons,
            List.getD_cons_zero, List.map_map]
          have hc : ∀ i ∈ List.range n,
              (fun i => t.getD i 0) i
                = ((fun i => (a :: t).getD i 0) ∘ Nat.succ) i := by
            intro i _
            simp [Function.comp, List.getD_cons_succ]
          rw [List.map_congr_left hc]

/-- C1: for every matrix state, every list of row indices and every list of
in-range column indices sorted by block-column membership (the router having
at least one block-column, the value array being the full row-major block),
the bulk `BlockSparseMatrix::set` yields exactly the final matrix state of
one single-element `set(i, j, value)` call per (row, column) pair of the
block, issued in row-major order. -/
theorem claim_C1_bulk_set_refines_pairwise
    (row_sizes col_sizes : List Nat) (M : Mat) (rows cols : List Nat)
    (vals : List ℚ) (bci0 lci0 : List Nat)
    (hB : 1 ≤ col_sizes.length)
    (hval : ∀ c ∈ cols, c < col_sizes.sum)
    (hsort : sortedByBlockColumn col_sizes cols = true)
    (hlen : vals.length = rows.length * cols.length) :
    bulkSet row_sizes col_sizes M rows cols vals bci0 lci0
      = .ok (pairwiseSet row_sizes col_sizes M rows cols vals) :=
  bulkSet_eq_pairwiseSet row_sizes col_sizes M rows cols vals bci0 lci0
    hB hval hsort hlen

/-- Witness for C1: a concrete 1×2 block grid with a 1×3 dense block
spanning both block-columns. -/
theorem claim_C1_witness :
    (1 ≤ ([1, 2] : List Nat).length)
    ∧ (∀ c ∈ ([0, 1, 2] : List Nat), c < ([1, 2] : List Nat).sum)
    ∧ sortedByBlockColumn [1, 2] [0, 1, 2] = true
    ∧ ([(3 : ℚ), 4, 5].length = ([5] : List Nat).length * ([0, 1, 2] : List Nat).length)
    ∧ bulkSet [6] [1, 2] (fun _ _ _ _ => 0) [5] [0, 1, 2] [3, 4, 5] [] []
      = .ok (pairwiseSet [6] [1, 2] (fun _ _ _ _ => 0) [5] [0, 1, 2] [3, 4, 5]) :=
  ⟨by decide, by decide, by decide, by decide,
   claim_C1_bulk_set_refines_pairwise [6] [1, 2] (fun _ _ _ _ => 0) [5]
     [0, 1, 2] [3, 4, 5] [] [] (by decide) (by decide) (by decide) (by decide)⟩

/-- C2: on a sorted bulk call the single left-to-right column walk
partitions the column indices into one contiguous run per block-column:
`local_row_length` holds each block-column's run length (its number of owned
columns), `block_col_indices` holds the offset where each non-empty run
begins, `local_col_indices` holds every column's local index, and the run
lengths over all block-columns sum to `n_cols`. -/
theorem claim_C2_column_walk_partitions
    (col_sizes cols bci0 lci0 : List Nat)
    (hB : 1 ≤ col_sizes.length)
    (hval : ∀ c ∈ cols, c < col_sizes.sum)
    (hsort : sortedByBlockColumn col_sizes cols = true) :
    ∃ st : PartState,
      runPart col_sizes cols bci0 lci0 = .ok st
        ∧ (∀ b, st.local_row_length.getD b 0 = runLen col_sizes cols b)
        ∧ (∀ b, runLen col_sizes cols b ≠ 0 →
            st.block_col_indices.getD b 0 = runStart col_sizes cols b)
        ∧ st.local_col_indices = cols.map (localOf col_sizes)
        ∧ ((List.range col_sizes.length).map
            (fun b => st.local_row_length.getD b 0)).sum = cols.length := by
  obtain ⟨st, hok, hlci, hlrl, hbci, _, _⟩ :=
    runPart_sorted col_sizes cols bci0 lci0 hB hval hsort
  refine ⟨st, hok, hlrl, hbci, hlci, ?_⟩
  rw [List.map_congr_left (fun b _ => hlrl b)]
  exact sum_runLen col_sizes cols col_sizes.length
    (fun c hc => ownerOf_lt_length col_sizes c (hval c hc))

/-- Witness for C2: the walk on a concrete sorted call. -/
theorem claim_C2_witness :
    (1 ≤ ([1, 2] : List Nat).length)
    ∧ (∀ c ∈ ([0, 1, 2] : List Nat), c < ([1, 2] : List Nat).sum)
    ∧ sortedByBlockColumn [1, 2] [0, 1, 2] = true
    ∧ ∃ st : PartState,
        runPart [1, 2] [0, 1, 2] [7] [9] = .ok st
          ∧ (∀ b, st.local_row_length.getD b 0 = runLen [1, 2] [0, 1, 2] b)
          ∧ (∀ b, runLen [1, 2] [0, 1, 2] b ≠ 0 →
              st.block_col_indices.getD b 0 = runStart [1, 2] [0, 1, 2] b)
          ∧ st.local_col_indices = ([0, 1, 2] : List Nat).map (localOf [1, 2])
          ∧ ((List.range ([1, 2] : List Nat).length).map
              (fun b => st.local_row_length.getD b 0)).sum
            = ([0, 1, 2] : List Nat).length :=
  ⟨by decide, by decide, by decide,
   claim_C2_column_walk_partitions [1, 2] [0, 1, 2] [7] [9]
     (by decide) (by decide) (by decide)⟩

/-- C3: on a sorted bulk call, each global row index is resolved to its
(block-row, local-row) pair independently, and the dispatch loop forwards
exactly one single-row multi-column call per (row, block-column) pair with
non-zero run length — carrying the local row index, the run's precomputed
local column indices, and the value slice at offset
`n_cols * i + block_col_indices[block_col]` — while block-columns with run
length zero receive no call. -/
theorem claim_C3_dispatch_forwards_runs
    (row_sizes col_sizes cols rows bci0 lci0 : List Nat) (vals : List ℚ)
    (hB : 1 ≤ col_sizes.length)
    (hval : ∀ c ∈ cols, c < col_sizes.sum)
    (hsort : sortedByBlockColumn col_sizes cols = true) :
    ∃ st : PartState,
      runPart col_sizes cols bci0 lci0 = .ok st
        ∧ dispatchCalls row_sizes col_sizes.length cols.length st rows vals
          = (List.range rows.length).flatMap (fun i =>
              (List.range col_sizes.length).filterMap (fun bc =>
                if runLen col_sizes cols bc = 0 then none
                else some (runCall row_sizes col_sizes cols rows vals i bc)))
        ∧ ∀ call ∈ dispatchCalls row_sizes col_sizes.length cols.length st
            rows vals, runLen col_sizes cols call.blockCol ≠ 0 := by
  obtain ⟨st, hok, hlci, hlrl, hbci, _, _⟩ :=
    runPart_sorted col_sizes cols bci0 lci0 hB hval hsort
  have hchar := dispatchCalls_char row_sizes col_sizes cols rows vals st
    hlci hlrl hbci
  refine ⟨st, hok, hchar, ?_⟩
  intro call hc
  rw [hchar] at hc
  obtain ⟨i, _, hmem⟩ := List.mem_flatMap.mp hc
  obtain ⟨bc, _, hsome⟩ := List.mem_filterMap.mp hmem
  by_cases h : runLen col_sizes cols bc = 0
  · rw [if_pos h] at hsome
    exact absurd hsome (by simp)
  · rw [if_neg h] at hsome
    have hbc : call.blockCol = bc := by
      rw [← Option.some_inj.mp hsome]
      rfl
    rw [hbc]
    exact h

/-- Witness for C3 on a concrete sorted call with two rows. -/
theorem claim_C3_witness :
    (1 ≤ ([1, 2] : List Nat).length)
    ∧ (∀ c ∈ ([0, 2] : List Nat), c < ([1, 2] : List Nat).sum)
    ∧ sortedByBlockColumn [1, 2] [0, 2] = true
    ∧ ∃ st : PartState,
        runPart [1, 2] [0, 2] [] [] = .ok st
          ∧ dispatchCalls [3] ([1, 2] : List Nat).length
              ([0, 2] : List Nat).length st [1, 2] [(5 : ℚ), 6, 7, 8]
            = (List.range ([1, 2] : List Nat).length).flatMap (fun i =>
                (List.range ([1, 2] : List Nat).length).filterMap (fun bc =>
                  if runLen [1, 2] [0, 2] bc = 0 then none
                  else some (runCall [3] [1, 2] [0, 2] [1, 2]
                    [(5 : ℚ), 6, 7, 8] i bc)))
          ∧ ∀ call ∈ dispatchCalls [3] ([1, 2] : List Nat).length
              ([0, 2] : List Nat).length st [1, 2] [(5 : ℚ), 6, 7, 8],
              runLen [1, 2] [0, 2] call.blockCol ≠ 0 :=
  ⟨by decide, by decide, by decide,
   claim_C3_dispatch_forwards_runs [3] [1, 2] [0, 2] [1, 2] [] []
     [(5 : ℚ), 6, 7, 8] (by decide) (by decide) (by decide)⟩

/-- C4: a bulk `set`/`add` call whose in-range column indices are not sorted
by increasing owning block-column fails with the internal-consistency
assertion `ExcInternalError` — not with a user-facing dimension or range
error. -/
theorem claim_C4_unsorted_raises_internal_error
    (row_sizes col_sizes : List Nat) (M : Mat) (rows cols : List Nat)
    (vals : List ℚ) (bci0 lci0 : List Nat)
    (hB : 1 ≤ col_sizes.length)
    (hval : ∀ c ∈ cols, c < col_sizes.sum)
    (hunsorted : sortedByBlockColumn col_sizes cols = false) :
    bulkSet row_sizes col_sizes M rows cols vals bci0 lci0
        = .error .internalError
      ∧ bulkAdd row_sizes col_sizes M rows cols vals bci0 lci0
        = .error .internalError :=
  ⟨bulkSet_runPart_error row_sizes col_sizes M rows cols vals bci0 lci0 _
     (runPart_not_sorted col_sizes cols bci0 lci0 hB hval hunsorted),
   bulkAdd_runPart_error row_sizes col_sizes M rows cols vals bci0 lci0 _
     (runPart_not_sorted col_sizes cols bci0 lci0 hB hval hunsorted)⟩

/-- Witness for C4: column indices `[2, 0]` on block-columns of sizes
`[1, 2]` (owners `1, 0`, a descent). -/
theorem claim_C4_witness :
    (1 ≤ ([1, 2] : List Nat).length)
    ∧ (∀ c ∈ ([2, 0] : List Nat), c < ([1, 2] : List Nat).sum)
    ∧ sortedByBlockColumn [1, 2] [2, 0] = false
    ∧ bulkSet [3] [1, 2] (fun _ _ _ _ => 0) [0] [2, 0] [(1 : ℚ), 2] [] []
        = .error .internalError
    ∧ bulkAdd [3] [1, 2] (fun _ _ _ _ => 0) [0] [2, 0] [(1 : ℚ), 2] [] []
        = .error .internalError :=
  ⟨by decide, by decide, by decide,
   (claim_C4_unsorted_raises_internal_error [3] [1, 2] (fun _ _ _ _ => 0)
     [0] [2, 0] [(1 : ℚ), 2] [] [] (by decide) (by decide) (by decide)).1,
   (claim_C4_unsorted_raises_internal_error [3] [1, 2] (fun _ _ _ _ => 0)
     [0] [2, 0] [(1 : ℚ), 2] [] [] (by decide) (by decide) (by decide)).2⟩

/-- C5: the bulk `set`/`add` overloads write `block_col_indices[0]` after
resizing the scratch arrays to `n_block_cols()` elements, so on a router
with zero block-columns every call makes an out-of-bounds scratch write;
with at least one block-column (and in-range column indices, the only case
in which the spec defines the prefix-sum map) no scratch access is out of
bounds. -/
theorem claim_C5_scratch_write_bounds
    (row_sizes : List Nat) (M : Mat) (rows cols : List Nat) (vals : List ℚ)
    (bci0 lci0 : List Nat) :
    (bulkSet row_sizes [] M rows cols vals bci0 lci0 = .error .oobWrite
      ∧ bulkAdd row_sizes [] M rows cols vals bci0 lci0 = .error .oobWrite)
    ∧ ∀ col_sizes : List Nat, 1 ≤ col_sizes.length →
        (∀ c ∈ cols, c < col_sizes.sum) →
        bulkSet row_sizes col_sizes M rows cols vals bci0 lci0
            ≠ .error .oobWrite
          ∧ bulkAdd row_sizes col_sizes M rows cols vals bci0 lci0
            ≠ .error .oobWrite := by
  constructor
  · exact ⟨bulkSet_runPart_error row_sizes [] M rows cols vals bci0 lci0 _
      (runPart_zero_cols cols bci0 lci0),
     bulkAdd_runPart_error row_sizes [] M rows cols vals bci0 lci0 _
      (runPart_zero_cols cols bci0 lci0)⟩
  · intro col_sizes hB hval
    cases hs : sortedByBlockColumn col_sizes cols with
    | true =>
        obtain ⟨st, hok, _⟩ := runPart_sorted col_sizes cols bci0 lci0 hB hval hs
        rw [bulkSet_runPart_ok row_sizes col_sizes M rows cols vals bci0 lci0
          st hok, bulkAdd_runPart_ok row_sizes col_sizes M rows cols vals
          bci0 lci0 st hok]
        exact ⟨by simp, by simp⟩
    | false =>
        rw [bulkSet_runPart_error row_sizes col_sizes M rows cols vals bci0
          lci0 _ (runPart_not_sorted col_sizes cols bci0 lci0 hB hval hs),
          bulkAdd_runPart_error row_sizes col_sizes M rows cols vals bci0
          lci0 _ (runPart_not_sorted col_sizes cols bci0 lci0 hB hval hs)]
        exact ⟨by simp, by simp⟩

/-- Witness for C5: the default 0×0 grid makes the write out of bounds; a
one-block-column grid does not. -/
theorem claim_C5_witness :
    (bulkSet [1] [] (fun _ _ _ _ => 0) [0] [0] [(1 : ℚ)] [] []
        = .error .oobWrite)
    ∧ (1 ≤ ([2] : List Nat).length)
    ∧ (∀ c ∈ ([0] : List Nat), c < ([2] : List Nat).sum)
    ∧ bulkSet [1] [2] (fun _ _ _ _ => 0) [0] [0] [(1 : ℚ)] [] []
        ≠ .error .oobWrite :=
  ⟨(claim_C5_scratch_write_bounds [1] (fun _ _ _ _ => 0) [0] [0] [(1 : ℚ)]
      [] []).1.1,
   by decide, by decide,
   ((claim_C5_scratch_write_bounds [1] (fun _ _ _ _ => 0) [0] [0] [(1 : ℚ)]
      [] []).2 [2] (by decide) (by decide)).1⟩

/-- C6: `is_compressed()` returns `true` iff every block of the
`n_block_rows × n_block_cols` grid reports `is_compressed()` true;
equivalently, it returns `false` exactly when some block is uncompressed. -/
theorem claim_C6_is_compressed_iff_all_blocks (nbr nbc : Nat)
    (f : Nat → Nat → Bool) :
    is_compressed nbr nbc f = true ↔
      ∀ r, r < nbr → ∀ c, c < nbc → f r c = true :=
  is_compressed_eq_all nbr nbc f

/-- C7: element access `V(i)` fails with the index-out-of-range error for
`i ≥ size` and returns the stored element for `i < size`; the error branch
is unreachable whenever `i < size`. -/
theorem claim_C7_element_access (v : Vector) (i : Nat) :
    (v.dim ≤ i → v.el i = .error .indexOutOfRange)
    ∧ (i < v.dim → v.el i = .ok (v.val.getD i 0)) := by
  constructor
  · intro h
    unfold Vector.el
    rw [if_neg (by omega)]
  · intro h
    unfold Vector.el
    rw [if_pos h]

/-- Witness for C7 on a concrete two-element vector. -/
theorem claim_C7_witness :
    ((⟨2, 2, [5, 7]⟩ : Vector).dim ≤ 3
      ∧ (⟨2, 2, [5, 7]⟩ : Vector).el 3 = .error .indexOutOfRange)
    ∧ (1 < (⟨2, 2, [5, 7]⟩ : Vector).dim
      ∧ (⟨2, 2, [5, 7]⟩ : Vector).el 1
          = .ok ((⟨2, 2, [5, 7]⟩ : Vector).val.getD 1 0)) :=
  ⟨⟨by decide, (claim_C7_element_access ⟨2, 2, [5, 7]⟩ 3).1 (by decide)⟩,
   ⟨by decide, (claim_C7_element_access ⟨2, 2, [5, 7]⟩ 1).2 (by decide)⟩⟩

/-- C8: `mean_value()` fails with `ExcEmptyVector` on a zero-length vector
and returns the arithmetic mean — the sum of the `dim` elements divided by
the size — on every non-empty vector. -/
theorem claim_C8_mean_value (v : Vector) :
    (v.dim = 0 → v.mean_value = .error .emptyVector)
    ∧ (0 < v.dim → v.mean_value
        = .ok ((((List.range v.dim).map (fun i => v.val.getD i 0)).sum)
            / (v.dim : ℚ))) := by
  constructor
  · intro h
    unfold Vector.mean_value
    rw [if_pos h]
  · intro h
    unfold Vector.mean_value
    rw [if_neg (by omega), take_sum_eq_range_sum]

/-- Witness for C8: the empty vector errors; `[1, 2, 3]` has mean `2`. -/
theorem claim_C8_witness :
    ((⟨0, 0, []⟩ : Vector).mean_value = .error .emptyVector)
    ∧ (0 < (⟨3, 3, [1, 2, 3]⟩ : Vector).dim
      ∧ (⟨3, 3, [1, 2, 3]⟩ : Vector).mean_value
        = .ok ((((List.range (⟨3, 3, [1, 2, 3]⟩ : Vector).dim).map
            (fun i => (⟨3, 3, [1, 2, 3]⟩ : Vector).val.getD i 0)).sum)
          / ((⟨3, 3, [1, 2, 3]⟩ : Vector).dim : ℚ))) :=
  ⟨(claim_C8_mean_value ⟨0, 0, []⟩).1 rfl,
   ⟨by decide, (claim_C8_mean_value ⟨3, 3, [1, 2, 3]⟩).2 (by decide)⟩⟩

/-- C9: `reinit 0` (releasing storage) followed by `reinit n false`
produces a vector of size `n` whose elements are all exactly zero. -/
theorem claim_C9_reinit_zero_then_n (v : Vector) (n : Nat) (fast0 : Bool) :
    ((v.reinit 0 fast0).reinit n false).dim = n
    ∧ ∀ i, i < n → ((v.reinit 0 fast0).reinit n false).val.getD i 0 = 0 := by
  have h0 : v.reinit 0 fast0 = ⟨0, 0, []⟩ := by
    unfold Vector.reinit
    rw [if_pos rfl]
  rw [h0]
  unfold Vector.reinit
  by_cases hn : n = 0
  · subst hn
    rw [if_pos rfl]
    exact ⟨rfl, fun i hi => by omega⟩
  · rw [if_neg hn]
    refine ⟨rfl, fun i hi => ?_⟩
    show (List.replicate (max 0 n) (0 : ℚ)).getD i 0 = 0
    exact getD_replicate_q _ _

/-- Witness for C9 at `n = 3`. -/
theorem claim_C9_witness :
    ((((⟨2, 2, [5, 7]⟩ : Vector).reinit 0 true).reinit 3 false).dim = 3)
    ∧ ((((⟨2, 2, [5, 7]⟩ : Vector).reinit 0 true).reinit 3 false).val.getD 1 0
        = 0) :=
  ⟨(claim_C9_reinit_zero_then_n ⟨2, 2, [5, 7]⟩ 3 true).1,
   (claim_C9_reinit_zero_then_n ⟨2, 2, [5, 7]⟩ 3 true).2 1 (by decide)⟩

/-- C10: for equal-size vectors, `V.add(a, W)` followed by `V.add(-a, W)`
restores every element of `V` (round trip), the size being preserved. -/
theorem claim_C10_add_round_trip (v w : Vector) (a : ℚ) (h : v.dim = w.dim) :
    ∃ u r : Vector, v.add a w = .ok u ∧ u.add (-a) w = .ok r
      ∧ r.dim = v.dim
      ∧ ∀ i, i < v.dim → r.val.getD i 0 = v.val.getD i 0 := by
  have h1 : v.add a w = .ok ⟨v.dim, v.maxdim,
      (List.range v.dim).map (fun i => v.val.getD i 0 + a * w.val.getD i 0)
        ++ v.val.drop v.dim⟩ := by
    unfold Vector.add
    rw [if_pos h]
  have h2 : (⟨v.dim, v.maxdim,
      (List.range v.dim).map (fun i => v.val.getD i 0 + a * w.val.getD i 0)
        ++ v.val.drop v.dim⟩ : Vector).add (-a) w
      = .ok ⟨v.dim, v.maxdim,
        (List.range v.dim).map (fun i =>
          ((List.range v.dim).map (fun i => v.val.getD i 0 + a * w.val.getD i 0)
            ++ v.val.drop v.dim).getD i 0 + (-a) * w.val.getD i 0)
          ++ ((List.range v.dim).map (fun i =>
            v.val.getD i 0 + a * w.val.getD i 0)
            ++ v.val.drop v.dim).drop v.dim⟩ := by
    unfold Vector.add
    rw [if_pos h]
  refine ⟨_, _, h1, h2, rfl, ?_⟩
  intro i hi
  show ((List.range v.dim).map (fun i =>
      ((List.range v.dim).map (fun i => v.val.getD i 0 + a * w.val.getD i 0)
        ++ v.val.drop v.dim).getD i 0 + (-a) * w.val.getD i 0)
      ++ _).getD i 0 = v.val.getD i 0
  rw [getD_append_left_q _ _ i (by simpa using hi),
    getD_map_range_q v.dim _ i hi,
    getD_append_left_q _ _ i (by simpa using hi),
    getD_map_range_q v.dim _ i hi]
  ring

/-- Witness for C10 on concrete vectors of size 2. -/
theorem claim_C10_witness :
    ((⟨2, 2, [5, 7]⟩ : Vector).dim = (⟨2, 2, [1, 1]⟩ : Vector).dim)
    ∧ ∃ u r : Vector,
        (⟨2, 2, [5, 7]⟩ : Vector).add 3 ⟨2, 2, [1, 1]⟩ = .ok u
        ∧ u.add (-3) ⟨2, 2, [1, 1]⟩ = .ok r
        ∧ r.dim = (⟨2, 2, [5, 7]⟩ : Vector).dim
        ∧ ∀ i, i < (⟨2, 2, [5, 7]⟩ : Vector).dim →
            r.val.getD i 0 = (⟨2, 2, [5, 7]⟩ : Vector).val.getD i 0 :=
  ⟨by decide,
   claim_C10_add_round_trip ⟨2, 2, [5, 7]⟩ ⟨2, 2, [1, 1]⟩ 3 (by decide)⟩

end DealII
